import Mathlib

/-!
Verification development for the msbc configuration pipeline (src/main.go).

The Go program is embedded shallowly: every pure transformation of the
pipeline (URI record construction, identity based deduplication, region
classification, singleton collapse, group synthesis, template load and merge)
is rendered as an executable Lean function translated from the corresponding
Go function, with machine state (slices, maps) made explicit. File and
network effects stay outside the embedding: the functions below receive the
already fetched and already read data as arguments.
-/

namespace Msbc

/-- Embedding of the Go struct BaseOutbound (src/main.go lines 18-21). The Go
field named Type is rendered as typ because Type is reserved in Lean. -/
structure BaseOutbound where
  typ : String
  Tag : String
deriving DecidableEq, Repr

/-- The nested TLS struct of TrojanOutbound (src/main.go lines 29-33). -/
structure TLSSettings where
  Enabled : Bool
  ServerName : String
  Insecure : Bool
deriving DecidableEq, Repr

/-- Embedding of the Go struct TrojanOutbound (src/main.go lines 23-34);
ServerPort is a Go int, rendered as Int. -/
structure TrojanOutbound extends BaseOutbound where
  Server : String
  ServerPort : Int
  Password : String
  TLS : TLSSettings
deriving DecidableEq, Repr

/-- Embedding of the Go struct SelectorOutbound (src/main.go lines 36-40). -/
structure SelectorOutbound extends BaseOutbound where
  Outbounds : List String
deriving DecidableEq, Repr

/-- Embedding of the Go struct GroupOutbound (src/main.go lines 42-46). -/
structure GroupOutbound extends SelectorOutbound where
  InterruptExistConnections : Bool
deriving DecidableEq, Repr

/-- Embedding of outboundKey (src/main.go lines 52-54): the Go expression
server + ":" + strconv.Itoa(port); Int.repr renders an int the way
strconv.Itoa does. -/
def outboundKey (server : String) (port : Int) : String :=
  server ++ ":" ++ Int.repr port

/-- The deduplication key of a record, outboundKey applied to its own host and
port as in src/main.go line 182. -/
def recordKey (ob : TrojanOutbound) : String :=
  outboundKey ob.Server ob.ServerPort

/-- One iteration of the deduplication loop of main (src/main.go lines
182-189). The state is the outbounds slice paired with indexMap; the Go map
is modelled as an association list consulted through List.lookup. -/
def registryStep (st : List TrojanOutbound × List (String × Nat))
    (ob : TrojanOutbound) : List TrojanOutbound × List (String × Nat) :=
  let key := outboundKey ob.Server ob.ServerPort
  match st.2.lookup key with
  | some idx => (st.1.set idx ob, st.2)
  | none => (st.1 ++ [ob], (key, st.1.length) :: st.2)

/-- The endpoint registry: the full deduplication loop of main starting from
the empty slice and empty indexMap (src/main.go lines 164-190), restricted to
the stream of successfully parsed records. -/
def registry (obs : List TrojanOutbound) : List TrojanOutbound :=
  (obs.foldl registryStep ([], [])).1

/-- Go unicode.IsSpace: the Unicode White_Space property, written out as the
explicit character table the Go runtime uses. -/
def goIsSpace (c : Char) : Bool :=
  c == '\t' || c == '\n' || c == '\x0b' || c == '\x0c' || c == '\r' ||
  c == ' ' || c == '\u0085' || c == '\u00A0' || c == '\u1680' ||
  ('\u2000' ≤ c && c ≤ '\u200A') || c == '\u2028' || c == '\u2029' ||
  c == '\u202F' || c == '\u205F' || c == '\u3000'

/-- Splitting a character sequence at every character satisfying p: the
chunks between separator characters, empties included, as String.split
produces them. Written as structural recursion over the character list so
that it evaluates inside the kernel. -/
def splitChars (p : Char → Bool) : List Char → List (List Char)
  | [] => [[]]
  | c :: cs =>
    let r := splitChars p cs
    if p c then [] :: r
    else (c :: r.headD []) :: r.tail

/-- Go strings.Fields: the maximal runs of non space characters, that is, the
chunks between White_Space characters with the empty chunks dropped. -/
def goFields (s : String) : List String :=
  ((splitChars goIsSpace s.data).map (fun l => (⟨l⟩ : String))).filter
    (fun t => t != "")

/-- Embedding of extractRegion (src/main.go lines 105-111): strings.Fields,
keep the whole tag for at most one field, otherwise strings.Join of all
fields but the last with a single space. -/
def extractRegion (tag : String) : String :=
  let fields := goFields tag
  if fields.length ≤ 1 then tag
  else " ".intercalate fields.dropLast

/-- Decidable approximation of the Go unicode.So table used by removeEmoji:
the principal Symbol-other blocks (arrows, miscellaneous symbols, dingbats,
and the supplemental pictographic planes). No claim quantifies over the exact
extent of the table; the embedding only needs a fixed decidable predicate
that is faithful on the inputs appearing in this file. -/
def unicodeSo (c : Char) : Bool :=
  (0x2190 ≤ c.toNat && c.toNat ≤ 0x2BFF) ||
  (0x1F000 ≤ c.toNat && c.toNat ≤ 0x1FBFF) ||
  (0x2070E == c.toNat)

/-- Embedding of removeEmoji (src/main.go lines 340-347): strings.Map
returning -1 on So runes drops exactly the So characters. -/
def removeEmoji (s : String) : String :=
  ⟨s.data.filter (fun c => !(unicodeSo c))⟩

/-- Go strings.TrimSpace: drop White_Space characters from both ends. -/
def goTrimSpace (s : String) : String :=
  ⟨((s.data.dropWhile goIsSpace).reverse.dropWhile goIsSpace).reverse⟩

/-- The numeric value of a nonempty run of decimal digit characters; none as
soon as a non digit appears or the run is empty. -/
def digitsToNat? (cs : List Char) : Option Nat :=
  match cs with
  | [] => none
  | _ =>
    cs.foldl
      (fun acc? c =>
        acc?.bind (fun acc =>
          if c.isDigit then some (acc * 10 + (c.toNat - 48)) else none))
      (some 0)

/-- Embedding of strconv.Atoi as applied to the port component: an optional
sign followed by decimal digits, anything else rejected. Overflow of the
64 bit range is not modelled; the integers stay arbitrary precision. -/
def Atoi (s : String) : Option Int :=
  match s.data with
  | '-' :: ds => (digitsToNat? ds).map (fun n => -(n : Int))
  | '+' :: ds => (digitsToNat? ds).map (fun n => (n : Int))
  | ds => (digitsToNat? ds).map (fun n => (n : Int))

/-- The portion of a parsed net/url URL value that parseTrojanURL reads. The
embedding starts from the successfully parsed URL; the url.Parse failure
branch (src/main.go lines 57-60) is the per line skip path of the caller and
carries no record data. Query is the url.Values multimap flattened to first
values, consulted through queryGet. -/
structure URL where
  Scheme : String
  Username : String
  Hostname : String
  PortString : String
  Query : List (String × String)
  Fragment : String
deriving DecidableEq, Repr

/-- url.Values.Get: the first value stored for the key, or the empty string. -/
def queryGet (q : List (String × String)) (k : String) : String :=
  (q.lookup k).getD ""

/-- Embedding of parseTrojanURL after a successful url.Parse (src/main.go
lines 56-103). The result mirrors the Go pair (ob, err): the first component
is the returned outbound pointer, the second the returned error. In the
branch for an empty port string the source returns the variable err, which
still holds the nil error of the successful url.Parse, so the embedding
returns (none, none) there. -/
def parseTrojanURL (u : URL) : Option TrojanOutbound × Option String :=
  if u.Scheme ≠ "trojan" then (none, none)
  else
    let password := u.Username
    let host := u.Hostname
    let portStr := u.PortString
    if portStr = "" then (none, none)
    else
      match Atoi portStr with
      | none => (none, some ("port atoi failed"))
      | some port =>
        let allowInsecure := queryGet u.Query "allowInsecure" == "1"
        let sni := queryGet u.Query "sni"
        let rawTag := goTrimSpace u.Fragment
        let tag := goTrimSpace (removeEmoji rawTag)
        (some { typ := "trojan", Tag := tag, Server := host, ServerPort := port,
                Password := password,
                TLS := { Enabled := true, ServerName := sni, Insecure := allowInsecure } },
         none)

/-- State of the region classification loop: the discovery ordered region
list and the regionTags map, the latter modelled as a total function whose
value on an absent key is the empty list (a nil Go slice). -/
structure RegionState where
  regionOrder : List String
  regionTags : String → List String

/-- One iteration of the region grouping loop (src/main.go lines 198-207).
The Go regionIndex map is consulted only for key existence and its domain is
maintained to be exactly the set of elements of regionOrder, so the existence
test is taken on regionOrder directly. -/
def classifyStep (st : RegionState) (ob : TrojanOutbound) : RegionState :=
  let region := extractRegion ob.Tag
  let st1 := if region ∈ st.regionOrder then st
             else { st with regionOrder := st.regionOrder ++ [region] }
  { st1 with
    regionTags := fun r =>
      if r = region then st1.regionTags region ++ [ob.Tag] else st1.regionTags r }

/-- The region classification pass over the deduplicated records. -/
def classify (outs : List TrojanOutbound) : RegionState :=
  outs.foldl classifyStep ⟨[], fun _ => []⟩

/-- The break terminated rewrite loop inside the singleton pass (src/main.go
lines 213-218): set the Tag of the first record whose Tag equals originalTag. -/
def rewriteFirstTag (outs : List TrojanOutbound) (oldTag newTag : String) :
    List TrojanOutbound :=
  match outs with
  | [] => []
  | ob :: rest =>
    if ob.Tag = oldTag then { ob with Tag := newTag } :: rest
    else ob :: rewriteFirstTag rest oldTag newTag

/-- Body of the singleton collapse loop for one region (src/main.go lines
209-222): when the region has exactly one member tag, rewrite the first
record carrying that tag and overwrite slot 0 of the member list. -/
def collapseStep (st : List TrojanOutbound × (String → List String))
    (region : String) : List TrojanOutbound × (String → List String) :=
  let tags := st.2 region
  if tags.length = 1 then
    let originalTag := tags.headD ""
    (rewriteFirstTag st.1 originalTag region,
     fun r => if r = region then tags.set 0 region else st.2 r)
  else st

/-- The singleton collapse pass. The Go source iterates the regionTags map in
the unspecified map iteration order; the embedding fixes the deterministic
region discovery order, whose elements are exactly the keys of the map. -/
def collapse (regionOrder : List String)
    (st : List TrojanOutbound × (String → List String)) :
    List TrojanOutbound × (String → List String) :=
  regionOrder.foldl collapseStep st

/-- Per region group synthesis (src/main.go lines 247-279): nothing for at
most one member, otherwise the urltest aggregator followed by the selector. -/
def emitRegion (regionTags : String → List String) (region : String) :
    List GroupOutbound :=
  let tags := regionTags region
  if tags.length ≤ 1 then []
  else
    let autoTag := region ++ "-auto"
    [ { typ := "urltest", Tag := autoTag, Outbounds := tags,
        InterruptExistConnections := false },
      { typ := "selector", Tag := region, Outbounds := autoTag :: tags,
        InterruptExistConnections := true } ]

/-- The group synthesis loop of main (src/main.go lines 245-281): visit the
regions in discovery order and append the per region constructs. -/
def buildGroups (regionOrder : List String)
    (regionTags : String → List String) : List GroupOutbound :=
  regionOrder.foldl (fun acc region => acc ++ emitRegion regionTags region) []

/-- The endpoint list as serialized to servers.json: registry output after
the singleton collapse pass (src/main.go lines 164-226). -/
def pipelineOuts (obs : List TrojanOutbound) : List TrojanOutbound :=
  let deduped := registry obs
  let st := classify deduped
  (collapse st.regionOrder (deduped, st.regionTags)).1

/-- Embedding of appendUnique (src/main.go lines 390-405). The Go seen set (a
map to the empty struct) is modelled as the list of inserted keys: it starts
with the elements of dst and grows together with dst. -/
def appendUniqueAux (seen dst src : List String) : List String :=
  match src with
  | [] => dst
  | v :: rest =>
    if v ∈ seen then appendUniqueAux seen dst rest
    else appendUniqueAux (v :: seen) (dst ++ [v]) rest

/-- Embedding of appendUnique (src/main.go lines 390-405): seed the seen set
from dst, then walk src appending the not yet seen values. -/
def appendUnique (dst src : List String) : List String :=
  appendUniqueAux dst dst src

/-- One raw template entry (a json.RawMessage) together with the outcomes of
the two unmarshal steps loadSelectors performs on it: raw stands for the
entry bytes, typeField for the decode of the type discriminator, asSelector
for the decode of the whole entry as a SelectorOutbound. -/
structure RawMsg where
  raw : String
  typeField : Option String
  asSelector : Option SelectorOutbound
deriving DecidableEq, Repr

/-- A loaded template entry: a json.RawMessage passed through untouched, or a
decoded selector. -/
inductive TemplateEntry where
  | passthrough (msg : RawMsg)
  | selector (sel : SelectorOutbound)
deriving DecidableEq, Repr

/-- The outcome of os.ReadFile plus the top level json.Unmarshal on the
template path: the file may not exist, the read may fail otherwise, or bytes
arrive carrying the unmarshal outcome for SelectorsConfig (none when the
content fails to decode). -/
inductive TemplateRead where
  | notExist
  | readFailure
  | bytes (cfg : Option (List RawMsg))
deriving DecidableEq, Repr

/-- The entry loop of loadSelectors (src/main.go lines 365-387): decode the
type discriminator, pass non selector entries through raw, fully decode
selector entries; any unmarshal failure aborts with an error. -/
def loadSelectorsLoop (raws : List RawMsg) : Except String (List TemplateEntry) :=
  match raws with
  | [] => .ok []
  | raw :: rest =>
    match raw.typeField with
    | none => .error ("unmarshal type failed")
    | some t =>
      if t ≠ "selector" then
        (loadSelectorsLoop rest).map (fun l => .passthrough raw :: l)
      else
        match raw.asSelector with
        | none => .error ("unmarshal selector failed")
        | some sel => (loadSelectorsLoop rest).map (fun l => .selector sel :: l)

/-- Embedding of loadSelectors (src/main.go lines 349-388): a missing file is
zero entries and no error, any other read failure or any unmarshal failure is
an error, otherwise the entry loop runs. -/
def loadSelectors (r : TemplateRead) : Except String (List TemplateEntry) :=
  match r with
  | .notExist => .ok []
  | .readFailure => .error ("read failed")
  | .bytes none => .error ("unmarshal config failed")
  | .bytes (some raws) => loadSelectorsLoop raws

/-- The merge loop over the loaded template entries (src/main.go lines
304-312): the type assertion selects the decoded selectors, whose member list
receives the region keys through appendUnique; raw entries fall through the
failed assertion unchanged. -/
def mergeSelectors (entries : List TemplateEntry) (regionOrder : List String) :
    List TemplateEntry :=
  entries.map fun ob =>
    match ob with
    | .passthrough msg => .passthrough msg
    | .selector sel =>
      .selector { sel with Outbounds := appendUnique sel.Outbounds regionOrder }

/-! Helper definitions for the statements and proofs: a structural rendering
of the decimal digit string of a number (to analyse outboundKey), and the
specification level description of the registry (first occurrence key order,
last record per key). -/

/-- The most significant first decimal digit characters of a natural number;
the structural counterpart of Nat.toDigits 10. -/
def decChars (n : Nat) : List Char :=
  if _h : n < 10 then [Nat.digitChar n]
  else decChars (n / 10) ++ [Nat.digitChar (n % 10)]
termination_by n
decreasing_by exact Nat.div_lt_self (by omega) (by omega)

/-- Numeric value of a decimal digit character. -/
def chDigit (c : Char) : Nat := c.toNat - 48

/-- Value of a most significant first decimal digit character list. -/
def chVal (l : List Char) : Nat :=
  l.foldl (fun a c => a * 10 + chDigit c) 0

/-- The Boolean match of a record against a host and port pair. -/
def matchesPair (host : String) (port : Int) (r : TrojanOutbound) : Bool :=
  r.Server == host && r.ServerPort == port

/-- The last record of the stream carrying the given key, if any. -/
def lastWithKey (k : String) (obs : List TrojanOutbound) : Option TrojanOutbound :=
  (obs.filter (fun r => recordKey r == k)).getLast?

/-- Specification of the registry: one record per key, keys in order of first
occurrence, each carrying the last value seen for its key. -/
def dedupLastWins (obs : List TrojanOutbound) : List TrojanOutbound :=
  match obs with
  | [] => []
  | ob :: rest =>
    (lastWithKey (recordKey ob) rest).getD ob ::
      dedupLastWins (rest.filter (fun r => recordKey r != recordKey ob))
termination_by obs.length
decreasing_by simpa using Nat.lt_succ_of_le (List.length_filter_le _ _)

/-- The distinct elements of a list in order of first occurrence. -/
def firstOccKeys (ks : List String) : List String :=
  match ks with
  | [] => []
  | k :: rest => k :: firstOccKeys (rest.filter (fun x => x != k))
termination_by ks.length
decreasing_by simpa using Nat.lt_succ_of_le (List.length_filter_le _ _)

/-- The slot index that the deduplication loop assigned to the key of the
first record matching the pair: the number of distinct keys strictly before
that record in the input, which is the length of the outbounds slice at the
moment of its insertion. -/
def insertionPos (obs : List TrojanOutbound) (host : String) (port : Int) : Nat :=
  (firstOccKeys ((obs.take (obs.findIdx (matchesPair host port))).map recordKey)).length

def smplTLS : TLSSettings := { Enabled := true, ServerName := "", Insecure := false }

def rKeyA : TrojanOutbound :=
  { typ := "trojan", Tag := "SG 01", Server := "h", ServerPort := 1, Password := "p1", TLS := smplTLS }

def rKeyB : TrojanOutbound :=
  { typ := "trojan", Tag := "SG 02", Server := "h", ServerPort := 1, Password := "p2", TLS := smplTLS }

def rKeyC : TrojanOutbound :=
  { typ := "trojan", Tag := "US 01", Server := "u", ServerPort := 2, Password := "p3", TLS := smplTLS }

def rLabB : TrojanOutbound :=
  { typ := "trojan", Tag := "SG 01", Server := "b", ServerPort := 1, Password := "p4", TLS := smplTLS }

def origTags (outs0 : List TrojanOutbound) (r : String) : List String :=
  (outs0.map (fun ob => ob.Tag)).filter (fun t => extractRegion t == r)

def singletonRegion (outs0 : List TrojanOutbound) (r : String) : Prop :=
  (origTags outs0 r).length = 1

instance (outs0 : List TrojanOutbound) (r : String) :
    Decidable (singletonRegion outs0 r) := by
  unfold singletonRegion
  infer_instance

def collapsedRecord (outs0 : List TrojanOutbound) (P : List String)
    (ob : TrojanOutbound) : TrojanOutbound :=
  if extractRegion ob.Tag ∈ P ∧ singletonRegion outs0 (extractRegion ob.Tag)
  then { ob with Tag := extractRegion ob.Tag } else ob

def collapsedTags (outs0 : List TrojanOutbound) (P : List String) (r : String) :
    List String :=
  if r ∈ P ∧ singletonRegion outs0 r then [r] else origTags outs0 r

def rColA : TrojanOutbound :=
  { typ := "trojan", Tag := "A B 1", Server := "h1", ServerPort := 1, Password := "p", TLS := smplTLS }

def rColB : TrojanOutbound :=
  { typ := "trojan", Tag := "A B", Server := "h2", ServerPort := 2, Password := "p", TLS := smplTLS }

def wJP1 : TrojanOutbound :=
  { typ := "trojan", Tag := "JP 01", Server := "wa", ServerPort := 1, Password := "p", TLS := smplTLS }

def wUS1 : TrojanOutbound :=
  { typ := "trojan", Tag := "US 01", Server := "wb", ServerPort := 2, Password := "p", TLS := smplTLS }

def wUS2 : TrojanOutbound :=
  { typ := "trojan", Tag := "US 02", Server := "wc", ServerPort := 3, Password := "p", TLS := smplTLS }

def urlNoPort : URL :=
  { Scheme := "trojan", Username := "p", Hostname := "hst", PortString := "",
    Query := [], Fragment := "Tag" }

def urlPortZero : URL :=
  { Scheme := "trojan", Username := "p", Hostname := "hst", PortString := "0",
    Query := [], Fragment := "Tag" }

def tJPUS : String → List String := fun r =>
  if r = "JP" then ["JP 01", "JP 02"] else if r = "US" then ["US"] else []

def badRaw : RawMsg := { raw := "x", typeField := none, asSelector := none }

def selProxy : SelectorOutbound := { typ := "selector", Tag := "proxy", Outbounds := ["direct"] }

def rawOpq : RawMsg := { raw := "dns-entry-bytes", typeField := some "dns", asSelector := none }

def rawSel : RawMsg :=
  { raw := "proxy-entry-bytes", typeField := some "selector", asSelector := some selProxy }

theorem digitChar_isDigit {m : Nat} (h : m < 10) : (Nat.digitChar m).isDigit = true := by
  interval_cases m <;> decide

theorem chDigit_digitChar {m : Nat} (h : m < 10) : chDigit (Nat.digitChar m) = m := by
  interval_cases m <;> decide

theorem toDigitsCore_eq_decChars (fuel : Nat) :
    ∀ (n : Nat) (acc : List Char), n < fuel →
      Nat.toDigitsCore 10 fuel n acc = decChars n ++ acc := by
  induction fuel with
  | zero => intro n acc h; omega
  | succ fuel ih =>
    intro n acc h
    by_cases h10 : n < 10
    · have hdiv : n / 10 = 0 := Nat.div_eq_of_lt h10
      unfold Nat.toDigitsCore
      rw [decChars]
      simp [hdiv, h10, Nat.mod_eq_of_lt h10]
    · have hdiv : n / 10 ≠ 0 := by
        intro hc
        have hdm := Nat.div_add_mod n 10
        have hm : n % 10 < 10 := Nat.mod_lt _ (by omega)
        omega
      have hlt : n / 10 < fuel := by
        have : n / 10 < n := Nat.div_lt_self (by omega) (by omega)
        omega
      unfold Nat.toDigitsCore
      rw [if_neg hdiv, ih _ _ hlt]
      conv_rhs => rw [decChars]
      simp [h10]

theorem natRepr_eq_decChars (n : Nat) : Nat.repr n = (decChars n).asString := by
  unfold Nat.repr Nat.toDigits
  rw [toDigitsCore_eq_decChars (n+1) n [] (Nat.lt_succ_self n)]
  simp

theorem decChars_digits (n : Nat) : ∀ c ∈ decChars n, c.isDigit = true := by
  induction n using Nat.strong_induction_on with
  | _ n ih =>
    rw [decChars]
    by_cases h : n < 10
    · simpa [h] using digitChar_isDigit h
    · simp only [h, dif_neg, not_false_iff, List.mem_append, List.mem_singleton]
      intro c hc
      rcases hc with hc | hc
      · exact ih (n / 10) (Nat.div_lt_self (by omega) (by omega)) c hc
      · subst hc; exact digitChar_isDigit (Nat.mod_lt _ (by omega))

theorem decChars_ne_nil (n : Nat) : decChars n ≠ [] := by
  rw [decChars]
  by_cases h : n < 10 <;> simp [h]

theorem chVal_decChars (n : Nat) : chVal (decChars n) = n := by
  induction n using Nat.strong_induction_on with
  | _ n ih =>
    rw [decChars]
    by_cases h : n < 10
    · simp [h, chVal, chDigit_digitChar h]
    · have hlt : n / 10 < n := Nat.div_lt_self (by omega) (by omega)
      have hv := ih (n / 10) hlt
      simp only [h, dif_neg, not_false_iff]
      unfold chVal at hv ⊢
      rw [List.foldl_append]
      simp only [List.foldl_cons, List.foldl_nil, hv]
      have := Nat.div_add_mod n 10
      rw [chDigit_digitChar (Nat.mod_lt _ (by omega))]
      omega

theorem decChars_inj {a b : Nat} (h : decChars a = decChars b) : a = b := by
  have := congrArg chVal h
  simpa [chVal_decChars] using this

theorem natRepr_inj {a b : Nat} (h : Nat.repr a = Nat.repr b) : a = b := by
  apply decChars_inj
  have h2 : (decChars a).asString = (decChars b).asString := by
    rw [← natRepr_eq_decChars, ← natRepr_eq_decChars]; exact h
  exact congrArg String.data h2

theorem decChars_no_colon (n : Nat) : ':' ∉ decChars n := by
  intro hc
  have := decChars_digits n _ hc
  simp at this

theorem decChars_no_minus (n : Nat) : '-' ∉ decChars n := by
  intro hc
  have := decChars_digits n _ hc
  simp at this

theorem intRepr_data (p : Int) :
    (Int.repr p).data = decChars p.natAbs ∨
    (Int.repr p).data = '-' :: decChars p.natAbs := by
  cases p with
  | ofNat m => left; rw [show Int.repr (Int.ofNat m) = Nat.repr m from rfl, natRepr_eq_decChars]; rfl
  | negSucc m =>
    right
    rw [show Int.repr (Int.negSucc m) = "-" ++ Nat.repr (m+1) from rfl, natRepr_eq_decChars]
    rw [String.data_append]
    rfl

theorem intRepr_no_colon (p : Int) : ':' ∉ (Int.repr p).data := by
  rcases intRepr_data p with h | h <;> rw [h]
  · exact decChars_no_colon _
  · intro hc
    rcases List.mem_cons.1 hc with hc | hc
    · exact absurd hc (by decide)
    · exact decChars_no_colon _ hc

theorem intRepr_inj {a b : Int} (h : Int.repr a = Int.repr b) : a = b := by
  have hd := congrArg String.data h
  cases a with
  | ofNat m =>
    cases b with
    | ofNat k =>
      have : Nat.repr m = Nat.repr k := h
      exact congrArg Int.ofNat (natRepr_inj this)
    | negSucc k =>
      exfalso
      rw [show Int.repr (Int.ofNat m) = Nat.repr m from rfl,
          show Int.repr (Int.negSucc k) = "-" ++ Nat.repr (k+1) from rfl,
          natRepr_eq_decChars, natRepr_eq_decChars] at hd
      rw [String.data_append] at hd
      have hd2 : decChars m = '-' :: decChars (k+1) := hd
      have : '-' ∈ decChars m := by rw [hd2]; exact List.mem_cons_self _ _
      exact decChars_no_minus _ this
  | negSucc m =>
    cases b with
    | ofNat k =>
      exfalso
      rw [show Int.repr (Int.negSucc m) = "-" ++ Nat.repr (m+1) from rfl,
          show Int.repr (Int.ofNat k) = Nat.repr k from rfl,
          natRepr_eq_decChars, natRepr_eq_decChars] at hd
      rw [String.data_append] at hd
      have hd2 : '-' :: decChars (m+1) = decChars k := hd
      have : '-' ∈ decChars k := by rw [← hd2]; exact List.mem_cons_self _ _
      exact decChars_no_minus _ this
    | negSucc k =>
      rw [show Int.repr (Int.negSucc m) = "-" ++ Nat.repr (m+1) from rfl,
          show Int.repr (Int.negSucc k) = "-" ++ Nat.repr (k+1) from rfl,
          natRepr_eq_decChars, natRepr_eq_decChars] at hd
      rw [String.data_append, String.data_append] at hd
      have hd2 : decChars (m+1) = decChars (k+1) := by
        have := hd
        simpa using this
      have hmk : m = k := by have := decChars_inj hd2; omega
      rw [hmk]

theorem append_cons_eq_of_notMem {c : Char} :
    ∀ (x x' y y' : List Char), x ++ c :: y = x' ++ c :: y' → c ∉ x → c ∉ x' →
      x = x' ∧ y = y' := by
  intro x
  induction x with
  | nil =>
    intro x' y y' heq hx hx'
    cases x' with
    | nil => simpa using heq
    | cons d x'' =>
      exfalso
      have : c = d := by simpa using congrArg (fun l => l.headD c) heq
      exact hx' (this ▸ List.mem_cons_self _ _)
  | cons d x2 ih =>
    intro x' y y' heq hx hx'
    cases x' with
    | nil =>
      exfalso
      have : d = c := by simpa using congrArg (fun l => l.headD c) heq
      exact hx (this ▸ List.mem_cons_self _ _)
    | cons d' x2' =>
      simp only [List.cons_append, List.cons.injEq] at heq
      obtain ⟨hdd, htail⟩ := heq
      have hx2 : c ∉ x2 := fun hc => hx (List.mem_cons_of_mem _ hc)
      have hx2' : c ∉ x2' := fun hc => hx' (List.mem_cons_of_mem _ hc)
      obtain ⟨h1, h2⟩ := ih x2' y y' htail hx2 hx2'
      exact ⟨by rw [hdd, h1], h2⟩

theorem last_sep_eq {c : Char} (x x' y y' : List Char)
    (heq : x ++ c :: y = x' ++ c :: y') (hy : c ∉ y) (hy' : c ∉ y') :
    x = x' ∧ y = y' := by
  have hrev := congrArg List.reverse heq
  simp only [List.reverse_append, List.reverse_cons] at hrev
  have hrev2 : y.reverse ++ c :: x.reverse = y'.reverse ++ c :: x'.reverse := by
    simpa [List.append_assoc] using hrev
  have hyr : c ∉ y.reverse := by simpa using hy
  have hyr' : c ∉ y'.reverse := by simpa using hy'
  obtain ⟨h1, h2⟩ := append_cons_eq_of_notMem _ _ _ _ hrev2 hyr hyr'
  constructor
  · have := congrArg List.reverse h2; simpa using this
  · have := congrArg List.reverse h1; simpa using this

theorem outboundKey_inj {s s' : String} {p p' : Int}
    (h : outboundKey s p = outboundKey s' p') : s = s' ∧ p = p' := by
  have hd := congrArg String.data h
  unfold outboundKey at hd
  rw [String.data_append, String.data_append, String.data_append, String.data_append] at hd
  have hd2 : s.data ++ ':' :: (Int.repr p).data = s'.data ++ ':' :: (Int.repr p').data := by
    simpa using hd
  obtain ⟨h1, h2⟩ := last_sep_eq _ _ _ _ hd2 (intRepr_no_colon p) (intRepr_no_colon p')
  refine ⟨String.ext h1, intRepr_inj (String.ext h2)⟩

theorem recordKey_eq_iff (r : TrojanOutbound) (host : String) (port : Int) :
    recordKey r = outboundKey host port ↔ (r.Server = host ∧ r.ServerPort = port) := by
  constructor
  · intro h
    exact outboundKey_inj h
  · rintro ⟨h1, h2⟩
    rw [recordKey, h1, h2]

theorem getLast?_cons_getD {α} (a : α) (l : List α) :
    (a :: l).getLast? = some (l.getLast?.getD a) := by
  cases h : l.getLast? with
  | none =>
    cases l with
    | nil => rfl
    | cons b t => simp [List.getLast?_cons] at h
  | some x => simp [List.getLast?_cons, h]

theorem lastWithKey_cons (k : String) (ob : TrojanOutbound) (rest : List TrojanOutbound) :
    lastWithKey k (ob :: rest) =
      if recordKey ob == k then some ((lastWithKey k rest).getD ob)
      else lastWithKey k rest := by
  unfold lastWithKey
  rw [List.filter_cons]
  by_cases h : (recordKey ob == k) = true
  · rw [if_pos h, if_pos h]
    exact getLast?_cons_getD _ _
  · rw [if_neg h, if_neg h]

theorem filter_filter_of_imp {α} (p q : α → Bool) (l : List α)
    (h : ∀ a, p a = true → q a = true) : (l.filter q).filter p = l.filter p := by
  induction l with
  | nil => rfl
  | cons a l ih =>
    by_cases hq : q a = true
    · by_cases hp : p a = true <;> simp [List.filter_cons, hq, hp, ih]
    · have hp : p a = false := by
        cases hpa : p a
        · rfl
        · exact absurd (h a hpa) hq
      simp [List.filter_cons, hq, hp, ih]

theorem set_of_getElem? {α} (l : List α) (i : Nat) (a : α) (h : l[i]? = some a) :
    l.set i a = l := by
  apply List.ext_getElem?
  intro n
  rw [List.getElem?_set]
  by_cases hin : i = n
  · subst hin
    have hlt : i < l.length := by
      by_contra hc
      rw [List.getElem?_eq_none (Nat.le_of_not_lt hc)] at h
      exact Option.noConfusion h
    simp [hlt, h]
  · simp [hin]

theorem map_key_filter (p : String → Bool) (l : List TrojanOutbound) :
    (l.filter (fun r => p (recordKey r))).map recordKey = (l.map recordKey).filter p := by
  induction l with
  | nil => rfl
  | cons a l ih =>
    by_cases h : p (recordKey a) = true <;> simp [List.filter_cons, h, ih]

theorem findIdx_map_key (p : String → Bool) (l : List TrojanOutbound) :
    l.findIdx (fun r => p (recordKey r)) = (l.map recordKey).findIdx p := by
  induction l with
  | nil => rfl
  | cons a l ih =>
    rw [List.map_cons, List.findIdx_cons, List.findIdx_cons]
    cases p (recordKey a) <;> simp [ih]

theorem lastWithKey_key {k : String} {obs : List TrojanOutbound} {r : TrojanOutbound}
    (h : lastWithKey k obs = some r) : recordKey r = k := by
  unfold lastWithKey at h
  have hmem := List.mem_of_mem_getLast? h
  have := (List.mem_filter.1 hmem).2
  simpa using this

theorem survivor_key (ob : TrojanOutbound) (rest : List TrojanOutbound) :
    recordKey ((lastWithKey (recordKey ob) rest).getD ob) = recordKey ob := by
  cases h : lastWithKey (recordKey ob) rest with
  | none => simp
  | some r => simp [lastWithKey_key h]

theorem registry_fold (obs : List TrojanOutbound) :
    ∀ (outs : List TrojanOutbound) (m : List (String × Nat)),
      (∀ k, m.lookup k = (outs.map recordKey).findIdx? (fun s => s == k)) →
      (outs.map recordKey).Nodup →
      (List.foldl registryStep (outs, m) obs).1 =
        outs.map (fun r => (lastWithKey (recordKey r) obs).getD r) ++
          dedupLastWins
            (obs.filter (fun r => !((outs.map recordKey).contains (recordKey r)))) := by
  induction obs with
  | nil =>
    intro outs m _ _
    simp [lastWithKey, dedupLastWins]
  | cons ob rest ih =>
    intro outs m hm hnd
    rw [List.foldl_cons]
    have hstep : registryStep (outs, m) ob =
        match m.lookup (recordKey ob) with
        | some idx => (outs.set idx ob, m)
        | none => (outs ++ [ob], (recordKey ob, outs.length) :: m) := rfl
    rw [hstep, hm (recordKey ob)]
    cases hfind : (outs.map recordKey).findIdx? (fun s => s == recordKey ob) with
    | some i =>
      -- the key of ob is already registered at slot i
      obtain ⟨hi, hpi, _⟩ := List.findIdx?_eq_some_iff_getElem.1 hfind
      have hilen : i < outs.length := by simpa using hi
      have hKi : recordKey outs[i] = recordKey ob := by
        have : (outs.map recordKey)[i] = recordKey ob := by simpa using hpi
        simpa using this
      have hkeysEq : (outs.set i ob).map recordKey = outs.map recordKey := by
        rw [List.map_set]
        apply set_of_getElem?
        rw [List.getElem?_map]
        rw [List.getElem?_eq_getElem hilen]
        simp [hKi]
      rw [ih (outs.set i ob) m (by intro k; rw [hm k, hkeysEq]) (by rw [hkeysEq]; exact hnd)]
      rw [hkeysEq]
      have hkmem : recordKey ob ∈ outs.map recordKey := by
        rw [List.mem_map]
        exact ⟨outs[i], List.getElem_mem hilen, hKi⟩
      have hcont : ((outs.map recordKey).contains (recordKey ob)) = true :=
        List.elem_iff.2 hkmem
      have hfilter :
          (ob :: rest).filter (fun r => !((outs.map recordKey).contains (recordKey r))) =
          rest.filter (fun r => !((outs.map recordKey).contains (recordKey r))) := by
        rw [List.filter_cons, hcont]
        simp
      rw [hfilter]
      -- remains: the overwritten map equals the full map
      have hmaps : (outs.set i ob).map (fun r => (lastWithKey (recordKey r) rest).getD r) =
          outs.map (fun r => (lastWithKey (recordKey r) (ob :: rest)).getD r) := by
        apply List.ext_getElem?
        intro n
        rw [List.getElem?_map, List.getElem?_map, List.getElem?_set]
        by_cases hin : i = n
        · subst hin
          rw [if_pos rfl]
          simp only [hilen, if_pos]
          rw [List.getElem?_eq_getElem hilen]
          simp only [Option.map_some']
          congr 1
          rw [lastWithKey_cons]
          rw [if_pos (by simp [hKi])]
          simp [hKi]
        · rw [if_neg hin]
          by_cases hn : n < outs.length
          · rw [List.getElem?_eq_getElem hn]
            simp only [Option.map_some']
            congr 1
            rw [lastWithKey_cons]
            have hkn : recordKey outs[n] ≠ recordKey ob := by
              intro hc
              have hi2 : i < (outs.map recordKey).length := by simpa using hilen
              have hn2 : n < (outs.map recordKey).length := by simpa using hn
              have h1 : (outs.map recordKey).get ⟨i, hi2⟩ =
                  (outs.map recordKey).get ⟨n, hn2⟩ := by
                simp [hKi, hc]
              have h2 := (List.Nodup.get_inj_iff hnd).1 h1
              exact hin (congrArg Fin.val h2)
            rw [if_neg (by simp [Ne.symm hkn])]
          · rw [List.getElem?_eq_none (Nat.le_of_not_lt hn)]
            simp
      rw [hmaps]
    | none =>
      -- fresh key: append and extend the index map
      have hknot : recordKey ob ∉ outs.map recordKey := by
        intro hmem
        have := List.findIdx?_eq_none_iff.1 hfind _ hmem
        simp at this
      have hkeys : (outs ++ [ob]).map recordKey = outs.map recordKey ++ [recordKey ob] := by
        simp
      have hm2 : ∀ k, ((recordKey ob, outs.length) :: m).lookup k =
          ((outs ++ [ob]).map recordKey).findIdx? (fun s => s == k) := by
        intro k
        rw [hkeys, List.findIdx?_append]
        cases hk : (k == recordKey ob) with
        | true =>
          have hkeq : k = recordKey ob := by simpa using hk
          subst hkeq
          rw [hfind]
          simp [List.lookup_cons, List.findIdx?]
        | false =>
          have hkequiv : k ≠ recordKey ob := by simpa using hk
          have h2 : ([recordKey ob].findIdx? (fun s => s == k)) = none := by
            rw [List.findIdx?_eq_none_iff]
            intro x hx
            rw [List.mem_singleton] at hx
            subst hx
            simpa using Ne.symm hkequiv
          rw [h2, ← hm k]
          simp [List.lookup_cons, hk]
      have hnd2 : ((outs ++ [ob]).map recordKey).Nodup := by
        rw [hkeys]
        simp [List.nodup_append, hnd, hknot]
      rw [ih (outs ++ [ob]) _ hm2 hnd2]
      rw [hkeys]
      -- second summand of the target
      have hcontf : ((outs.map recordKey).contains (recordKey ob)) = false := by
        cases hc : (outs.map recordKey).contains (recordKey ob)
        · rfl
        · exact absurd (List.elem_iff.1 hc) hknot
      have hfilter2 :
          (ob :: rest).filter (fun r => !((outs.map recordKey).contains (recordKey r))) =
          ob :: rest.filter (fun r => !((outs.map recordKey).contains (recordKey r))) := by
        rw [List.filter_cons, hcontf]
        simp
      rw [hfilter2, dedupLastWins]
      -- identify the survivors and the tails
      have hlast : lastWithKey (recordKey ob)
          (rest.filter (fun r => !((outs.map recordKey).contains (recordKey r)))) =
          lastWithKey (recordKey ob) rest := by
        unfold lastWithKey
        rw [filter_filter_of_imp]
        intro r hr
        have hreq : recordKey r = recordKey ob := by simpa using hr
        rw [hreq, hcontf]
        rfl
      have htails :
          rest.filter (fun r => !((outs.map recordKey ++ [recordKey ob]).contains (recordKey r))) =
          (rest.filter (fun r => !((outs.map recordKey).contains (recordKey r)))).filter
            (fun r => recordKey r != recordKey ob) := by
        rw [List.filter_filter]
        apply List.filter_congr
        intro r _
        by_cases h1 : recordKey r = recordKey ob
        · simp [h1]
        · simp [h1, Ne.symm h1]
      rw [htails, hlast]
      -- first summand
      have hmapfull : outs.map (fun r => (lastWithKey (recordKey r) (ob :: rest)).getD r) =
          outs.map (fun r => (lastWithKey (recordKey r) rest).getD r) := by
        apply List.map_congr_left
        intro r hr
        rw [lastWithKey_cons]
        have : recordKey ob ≠ recordKey r := by
          intro hc
          exact hknot (hc ▸ List.mem_map_of_mem recordKey hr)
        rw [if_neg (by simp [this])]
      rw [hmapfull]
      simp [List.append_assoc]

theorem registry_eq_dedupLastWins (obs : List TrojanOutbound) :
    registry obs = dedupLastWins obs := by
  unfold registry
  rw [registry_fold obs [] [] (by intro k; rfl) (by simp)]
  simp only [List.map_nil, List.nil_append]
  congr 1
  have : obs.filter (fun r => !(([] : List String).contains (recordKey r))) = obs := by
    apply List.filter_eq_self.2
    intro r _
    rfl
  rw [this]

theorem dedup_keys : ∀ (obs : List TrojanOutbound),
    (dedupLastWins obs).map recordKey = firstOccKeys (obs.map recordKey)
  | [] => by simp [dedupLastWins, firstOccKeys]
  | ob :: rest => by
    rw [dedupLastWins, List.map_cons, List.map_cons, firstOccKeys, survivor_key]
    have ih := dedup_keys (rest.filter (fun r => recordKey r != recordKey ob))
    rw [ih, map_key_filter (fun s => s != recordKey ob) rest]
termination_by obs => obs.length
decreasing_by simpa using Nat.lt_succ_of_le (List.length_filter_le _ _)

theorem mem_firstOccKeys (x : String) : ∀ (ks : List String),
    x ∈ firstOccKeys ks → x ∈ ks
  | [] => by simp [firstOccKeys]
  | k :: rest => by
    rw [firstOccKeys]
    intro h
    rcases List.mem_cons.1 h with h | h
    · exact h ▸ List.mem_cons_self _ _
    · have := mem_firstOccKeys x _ h
      exact List.mem_cons_of_mem _ (List.mem_of_mem_filter this)
termination_by ks => ks.length
decreasing_by simpa using Nat.lt_succ_of_le (List.length_filter_le _ _)

theorem firstOccKeys_nodup : ∀ (ks : List String), (firstOccKeys ks).Nodup
  | [] => by simp [firstOccKeys]
  | k :: rest => by
    rw [firstOccKeys]
    rw [List.nodup_cons]
    refine ⟨?_, firstOccKeys_nodup _⟩
    intro hmem
    have := mem_firstOccKeys _ _ hmem
    have := (List.mem_filter.1 this).2
    simp at this
termination_by ks => ks.length
decreasing_by simpa using Nat.lt_succ_of_le (List.length_filter_le _ _)

theorem dedup_filter_key : ∀ (obs : List TrojanOutbound) (k : String),
    (dedupLastWins obs).filter (fun r => recordKey r == k) = (lastWithKey k obs).toList
  | [], k => by simp [dedupLastWins, lastWithKey]
  | ob :: rest, k => by
    rw [dedupLastWins, List.filter_cons]
    have ih := dedup_filter_key (rest.filter (fun r => recordKey r != recordKey ob)) k
    by_cases hk : recordKey ob = k
    · subst hk
      rw [if_pos (by simp [survivor_key])]
      have hnone : lastWithKey (recordKey ob)
          (rest.filter (fun r => recordKey r != recordKey ob)) = none := by
        unfold lastWithKey
        rw [List.filter_filter]
        have hz : rest.filter
            (fun a => (recordKey a == recordKey ob) && (recordKey a != recordKey ob)) = [] := by
          rw [List.filter_eq_nil_iff]
          intro r _
          by_cases h : recordKey r = recordKey ob <;> simp [h]
        rw [hz]
        rfl
      rw [ih, hnone, lastWithKey_cons, if_pos (by simp)]
      rfl
    · rw [if_neg (by simp [survivor_key, hk])]
      have hsame : lastWithKey k (rest.filter (fun r => recordKey r != recordKey ob)) =
          lastWithKey k rest := by
        unfold lastWithKey
        rw [filter_filter_of_imp]
        intro r hr
        have hrk : recordKey r = k := by simpa using hr
        have hkob : k ≠ recordKey ob := fun hc => hk hc.symm
        simp [hrk, hkob]
      rw [ih, hsame, lastWithKey_cons, if_neg (by simp [hk])]
termination_by obs _ => obs.length
decreasing_by simpa using Nat.lt_succ_of_le (List.length_filter_le _ _)

theorem filter_take_findIdx (q : String → Bool) (k : String) (hq : q k = true) :
    ∀ (l : List String), (l.filter q).take ((l.filter q).findIdx (fun s => s == k)) =
      (l.take (l.findIdx (fun s => s == k))).filter q
  | [] => by simp
  | a :: l => by
    by_cases ha : q a = true
    · by_cases hak : (a == k) = true
      · simp [List.filter_cons, ha, List.findIdx_cons, hak]
      · have hakf : (a == k) = false := by simpa using hak
        rw [List.filter_cons, if_pos ha, List.findIdx_cons, hakf, List.findIdx_cons, hakf]
        simp only [cond_false, List.take_succ_cons, List.filter_cons, ha, if_pos]
        rw [filter_take_findIdx q k hq l]
    · have hak : (a == k) = false := by
        cases hab : a == k
        · rfl
        · exfalso
          have : a = k := by simpa using hab
          subst this
          exact ha hq
      rw [List.filter_cons, if_neg (by simp [ha]), List.findIdx_cons, hak]
      simp only [cond_false, List.take_succ_cons, List.filter_cons]
      rw [if_neg (by simp [ha])]
      rw [filter_take_findIdx q k hq l]

theorem firstOcc_findIdx_eq : ∀ (ks : List String) (k : String), k ∈ ks →
    (firstOccKeys ks).findIdx (fun s => s == k) =
      (firstOccKeys (ks.take (ks.findIdx (fun s => s == k)))).length
  | [], k => by intro h; simp at h
  | a :: ks, k => by
    intro hmem
    by_cases hak : a = k
    · subst hak
      rw [firstOccKeys, List.findIdx_cons]
      simp [List.findIdx_cons, firstOccKeys]
    · have hmem2 : k ∈ ks := by
        rcases List.mem_cons.1 hmem with h | h
        · exact absurd h.symm hak
        · exact h
      have hakf : (a == k) = false := by simpa using hak
      have hka : k ≠ a := fun hc => hak hc.symm
      have hkmemf : k ∈ ks.filter (fun x => x != a) :=
        List.mem_filter.2 ⟨hmem2, by simp [hka]⟩
      have ih := firstOcc_findIdx_eq (ks.filter (fun x => x != a)) k hkmemf
      rw [firstOccKeys, List.findIdx_cons, hakf, List.findIdx_cons, hakf]
      simp only [cond_false, List.take_succ_cons, firstOccKeys, List.length_cons]
      rw [ih]
      congr 2
      rw [filter_take_findIdx (fun x => x != a) k (by simp [hka]) ks]
termination_by ks _ => ks.length
decreasing_by simpa using Nat.lt_succ_of_le (List.length_filter_le _ _)

theorem firstOcc_append_stable : ∀ (xs ys : List String),
    ∃ zs, firstOccKeys (xs ++ ys) = firstOccKeys xs ++ zs
  | [], ys => ⟨firstOccKeys ys, by simp [firstOccKeys]⟩
  | x :: xs, ys => by
    rw [List.cons_append, firstOccKeys, firstOccKeys, List.filter_append]
    obtain ⟨zs, hz⟩ :=
      firstOcc_append_stable (xs.filter (fun s => s != x)) (ys.filter (fun s => s != x))
    exact ⟨zs, by rw [hz, List.cons_append]⟩
termination_by xs ys => xs.length + ys.length
decreasing_by
  have h1 := List.length_filter_le (fun s => s != x) xs
  have h2 := List.length_filter_le (fun s => s != x) ys
  simp only [List.length_cons]
  omega

theorem matchesPair_eq (host : String) (port : Int) (r : TrojanOutbound) :
    matchesPair host port r = (recordKey r == outboundKey host port) := by
  by_cases h : recordKey r = outboundKey host port
  · have hsp := (recordKey_eq_iff r host port).1 h
    simp [matchesPair, hsp.1, hsp.2, h]
  · have hnsp : ¬(r.Server = host ∧ r.ServerPort = port) := fun hc =>
      h ((recordKey_eq_iff r host port).2 hc)
    have h1 : (recordKey r == outboundKey host port) = false := by simpa using h
    rw [h1]
    unfold matchesPair
    by_cases hs : r.Server = host
    · have hp : r.ServerPort ≠ port := fun hc => hnsp ⟨hs, hc⟩
      simp [hs, hp]
    · simp [hs]

theorem matchesPair_funext (host : String) (port : Int) :
    matchesPair host port = (fun r => recordKey r == outboundKey host port) := by
  funext r
  exact matchesPair_eq host port r

/-- C7 (amended): after deduplication by the endpoint registry the identity
keys (host and port, combined by outboundKey) of the surviving records are
pairwise distinct. The claim as written, about labels, fails: deduplication
is keyed on host and port, so two distinct endpoints may keep one label. -/
theorem registry_keys_nodup (obs : List TrojanOutbound) :
    ((registry obs).map recordKey).Nodup := by
  rw [registry_eq_dedupLastWins, dedup_keys]
  exact firstOccKeys_nodup _

/-- C7 (counterexample): two records with distinct hosts but one common label
both survive the registry, so the surviving labels are not pairwise
distinct. -/
theorem registry_labels_cex :
    (registry [rKeyA, rLabB]).map (fun r => r.Tag) = ["SG 01", "SG 01"] ∧
    ¬ ((registry [rKeyA, rLabB]).map (fun r => r.Tag)).Nodup := by
  decide

/-- C1: when two or more parsed records share one (host, port) pair, the
registry output holds exactly one record for that pair, its value is the last
such record in input order, it sits at the slot where the first occurrence
was inserted (the number of distinct keys before it), and keys are never
removed: any extension of the input only extends the key sequence. -/
theorem registry_last_write_wins (obs : List TrojanOutbound) (host : String) (port : Int)
    (hmult : 2 ≤ (obs.filter (matchesPair host port)).length) :
    ((registry obs).filter (matchesPair host port)).length = 1 ∧
    (registry obs).filter (matchesPair host port) =
      ((obs.filter (matchesPair host port)).getLast?).toList ∧
    (registry obs).findIdx (matchesPair host port) = insertionPos obs host port ∧
    ∀ ext : List TrojanOutbound,
      ((registry (obs ++ ext)).map recordKey).take ((registry obs).length) =
        (registry obs).map recordKey := by
  have hfe := matchesPair_funext host port
  have hne : obs.filter (matchesPair host port) ≠ [] := by
    intro hc
    rw [hc] at hmult
    simp at hmult
  have hex : ∃ r, r ∈ obs ∧ matchesPair host port r = true := by
    obtain ⟨r, hr⟩ := List.exists_mem_of_ne_nil _ hne
    exact ⟨r, (List.mem_filter.1 hr).1, (List.mem_filter.1 hr).2⟩
  obtain ⟨r0, hr0mem, hr0p⟩ := hex
  have hk0 : recordKey r0 = outboundKey host port := by
    rw [matchesPair_eq] at hr0p
    simpa using hr0p
  have hkmem : outboundKey host port ∈ obs.map recordKey := by
    rw [← hk0]
    exact List.mem_map_of_mem _ hr0mem
  have hval : (registry obs).filter (matchesPair host port) =
      ((obs.filter (matchesPair host port)).getLast?).toList := by
    rw [hfe, registry_eq_dedupLastWins]
    exact dedup_filter_key obs (outboundKey host port)
  refine ⟨?_, hval, ?_, ?_⟩
  · rw [hval]
    cases hg : (obs.filter (matchesPair host port)).getLast? with
    | none => exact absurd (List.getLast?_eq_none_iff.1 hg) hne
    | some x => simp
  · rw [hfe, registry_eq_dedupLastWins]
    rw [findIdx_map_key (fun s => s == outboundKey host port), dedup_keys]
    rw [firstOcc_findIdx_eq _ _ hkmem]
    unfold insertionPos
    rw [hfe, findIdx_map_key (fun s => s == outboundKey host port)]
    congr 1
    rw [List.map_take]
  · intro ext
    rw [registry_eq_dedupLastWins, registry_eq_dedupLastWins, dedup_keys, dedup_keys,
      List.map_append]
    obtain ⟨zs, hz⟩ := firstOcc_append_stable (obs.map recordKey) (ext.map recordKey)
    rw [hz]
    have hlen : (dedupLastWins obs).length = (firstOccKeys (obs.map recordKey)).length := by
      have := congrArg List.length (dedup_keys obs)
      simpa using this
    rw [hlen, List.take_left]

/-- C1 witness: the registry theorem applied to a concrete stream where the
first and third records share the pair (h, 1). -/
theorem registry_last_write_wins_witness :
    2 ≤ ([rKeyA, rKeyC, rKeyB].filter (matchesPair "h" 1)).length ∧
    (((registry [rKeyA, rKeyC, rKeyB]).filter (matchesPair "h" 1)).length = 1 ∧
     (registry [rKeyA, rKeyC, rKeyB]).filter (matchesPair "h" 1) =
       (([rKeyA, rKeyC, rKeyB].filter (matchesPair "h" 1)).getLast?).toList ∧
     (registry [rKeyA, rKeyC, rKeyB]).findIdx (matchesPair "h" 1) =
       insertionPos [rKeyA, rKeyC, rKeyB] "h" 1 ∧
     ∀ ext : List TrojanOutbound,
       ((registry ([rKeyA, rKeyC, rKeyB] ++ ext)).map recordKey).take
           ((registry [rKeyA, rKeyC, rKeyB]).length) =
         (registry [rKeyA, rKeyC, rKeyB]).map recordKey) :=
  ⟨by decide, registry_last_write_wins [rKeyA, rKeyC, rKeyB] "h" 1 (by decide)⟩

theorem classifyStep_tags (st : RegionState) (ob : TrojanOutbound) (r : String) :
    (classifyStep st ob).regionTags r =
      if r = extractRegion ob.Tag then st.regionTags r ++ [ob.Tag]
      else st.regionTags r := by
  unfold classifyStep
  by_cases hmem : extractRegion ob.Tag ∈ st.regionOrder
  · by_cases hr : r = extractRegion ob.Tag <;> simp [hmem, hr]
  · by_cases hr : r = extractRegion ob.Tag <;> simp [hmem, hr]

theorem classifyStep_order (st : RegionState) (ob : TrojanOutbound) :
    (classifyStep st ob).regionOrder =
      if extractRegion ob.Tag ∈ st.regionOrder then st.regionOrder
      else st.regionOrder ++ [extractRegion ob.Tag] := by
  unfold classifyStep
  by_cases hmem : extractRegion ob.Tag ∈ st.regionOrder <;> simp [hmem]

theorem classify_fold_tags : ∀ (outs : List TrojanOutbound) (st : RegionState) (r : String),
    (List.foldl classifyStep st outs).regionTags r =
      st.regionTags r ++ (outs.map (fun ob => ob.Tag)).filter (fun t => extractRegion t == r)
  | [], st, r => by simp
  | ob :: rest, st, r => by
    rw [List.foldl_cons, classify_fold_tags rest _ r, classifyStep_tags]
    rw [List.map_cons, List.filter_cons]
    by_cases hr : r = extractRegion ob.Tag
    · rw [if_pos hr, if_pos (by simp [hr])]
      simp
    · rw [if_neg hr, if_neg (by simp [Ne.symm hr])]

theorem classify_fold_order_mem : ∀ (outs : List TrojanOutbound) (st : RegionState) (r : String),
    (r ∈ (List.foldl classifyStep st outs).regionOrder ↔
      r ∈ st.regionOrder ∨ ∃ ob ∈ outs, extractRegion ob.Tag = r)
  | [], st, r => by simp
  | ob :: rest, st, r => by
    rw [List.foldl_cons, classify_fold_order_mem rest _ r, classifyStep_order]
    by_cases hmem : extractRegion ob.Tag ∈ st.regionOrder
    · rw [if_pos hmem]
      constructor
      · rintro (h | h)
        · exact Or.inl h
        · exact Or.inr (by simpa using Or.inr h)
      · rintro (h | h)
        · exact Or.inl h
        · rcases (by simpa using h : extractRegion ob.Tag = r ∨ ∃ x ∈ rest, extractRegion x.Tag = r) with h2 | h2
          · exact Or.inl (h2 ▸ hmem)
          · exact Or.inr h2
    · rw [if_neg hmem]
      constructor
      · rintro (h | h)
        · rcases List.mem_append.1 h with h2 | h2
          · exact Or.inl h2
          · have h3 : r = extractRegion ob.Tag := by simpa using h2
            exact Or.inr ⟨ob, List.mem_cons_self _ _, h3.symm⟩
        · exact Or.inr (by simpa using Or.inr h)
      · rintro (h | h)
        · exact Or.inl (List.mem_append_left _ h)
        · rcases (by simpa using h : extractRegion ob.Tag = r ∨ ∃ x ∈ rest, extractRegion x.Tag = r) with h2 | h2
          · exact Or.inl (List.mem_append_right _ (by simp [h2]))
          · exact Or.inr h2

theorem classify_fold_order_nodup : ∀ (outs : List TrojanOutbound) (st : RegionState),
    st.regionOrder.Nodup → (List.foldl classifyStep st outs).regionOrder.Nodup
  | [], st => fun h => h
  | ob :: rest, st => fun h => by
    rw [List.foldl_cons]
    apply classify_fold_order_nodup rest
    rw [classifyStep_order]
    by_cases hmem : extractRegion ob.Tag ∈ st.regionOrder
    · rw [if_pos hmem]; exact h
    · rw [if_neg hmem]
      simp [List.nodup_append, h, hmem]

theorem classify_tags (outs : List TrojanOutbound) (r : String) :
    (classify outs).regionTags r = origTags outs r := by
  unfold classify origTags
  rw [classify_fold_tags]
  simp

theorem classify_order_nodup (outs : List TrojanOutbound) :
    (classify outs).regionOrder.Nodup := by
  unfold classify
  exact classify_fold_order_nodup outs _ (by simp)

theorem classify_order_mem (outs : List TrojanOutbound) (r : String) :
    r ∈ (classify outs).regionOrder ↔ ∃ ob ∈ outs, extractRegion ob.Tag = r := by
  unfold classify
  rw [classify_fold_order_mem]
  simp

theorem rewriteFirstTag_spec : ∀ (outs : List TrojanOutbound) (old new : String) (i : Nat)
    (hi : i < outs.length), (outs.get ⟨i, hi⟩).Tag = old →
    (∀ j (hj : j < outs.length), j < i → (outs.get ⟨j, hj⟩).Tag ≠ old) →
    rewriteFirstTag outs old new = outs.set i { outs.get ⟨i, hi⟩ with Tag := new }
  | [], old, new, i, hi => by simp at hi
  | ob :: rest, old, new, 0, hi => by
    intro hmatch _
    have hm2 : ob.Tag = old := hmatch
    unfold rewriteFirstTag
    rw [if_pos hm2]
    rfl
  | ob :: rest, old, new, i+1, hi => by
    intro hmatch hbefore
    unfold rewriteFirstTag
    have hob : ob.Tag ≠ old := by
      have := hbefore 0 (by simp) (Nat.succ_pos i)
      simpa using this
    rw [if_neg hob]
    rw [rewriteFirstTag_spec rest old new i (by simpa using hi) (by simpa using hmatch) ?_]
    · rfl
    · intro j hj hlt
      have := hbefore (j+1) (by simpa using hj) (Nat.succ_lt_succ hlt)
      simpa using this

theorem filter_eq_singleton_unique {α} (p : α → Bool) :
    ∀ (l : List α) (a : α), l.filter p = [a] →
      ∃ (i : Nat) (hi : i < l.length), l.get ⟨i, hi⟩ = a ∧ p a = true ∧
        ∀ j (hj : j < l.length), j ≠ i → p (l.get ⟨j, hj⟩) = false
  | [], a => by intro h; simp at h
  | x :: l, a => by
    intro h
    rw [List.filter_cons] at h
    by_cases hp : p x = true
    · rw [if_pos hp] at h
      have hx : x = a := by
        have := congrArg (fun t => t.headD x) h
        simpa using this
      have hfil : l.filter p = [] := by
        have := congrArg List.tail h
        simpa using this
      refine ⟨0, by simp, by simpa using hx, hx ▸ hp, ?_⟩
      intro j hj hne
      cases j with
      | zero => exact absurd rfl hne
      | succ j =>
        have hmem : l.get ⟨j, by simpa using hj⟩ ∈ l := List.get_mem l j _
        have := List.filter_eq_nil_iff.1 hfil _ hmem
        simpa using this
    · rw [if_neg hp] at h
      obtain ⟨i, hi, hget, hpa, hother⟩ := filter_eq_singleton_unique p l a h
      refine ⟨i + 1, by simpa using Nat.succ_lt_succ hi, by simpa using hget, hpa, ?_⟩
      intro j hj hne
      cases j with
      | zero => simpa using hp
      | succ j =>
        exact hother j (by simpa using hj) (fun hc => hne (by rw [hc]))

theorem origTags_singleton_unique (outs0 : List TrojanOutbound) (r0 t0 : String)
    (h : origTags outs0 r0 = [t0]) :
    ∃ (i0 : Nat) (hi0 : i0 < outs0.length),
      (outs0.get ⟨i0, hi0⟩).Tag = t0 ∧ extractRegion t0 = r0 ∧
      ∀ j (hj : j < outs0.length), j ≠ i0 →
        extractRegion ((outs0.get ⟨j, hj⟩).Tag) ≠ r0 := by
  unfold origTags at h
  obtain ⟨i, hi, hget, hp, hother⟩ := filter_eq_singleton_unique _ _ _ h
  have hlen : i < outs0.length := by simpa using hi
  refine ⟨i, hlen, ?_, by simpa using hp, ?_⟩
  · rw [← hget]
    simp
  · intro j hj hne hc
    have := hother j (by simpa using hj) hne
    simp only [List.get_map] at this
    rw [hc] at this
    simp at this

theorem collapsedRecord_snoc (outs0 : List TrojanOutbound) (P : List String) (r0 : String)
    (ob : TrojanOutbound)
    (h : extractRegion ob.Tag ≠ r0 ∨ ¬ singletonRegion outs0 r0) :
    collapsedRecord outs0 (P ++ [r0]) ob = collapsedRecord outs0 P ob := by
  unfold collapsedRecord
  by_cases hp : extractRegion ob.Tag ∈ P ∧ singletonRegion outs0 (extractRegion ob.Tag)
  · rw [if_pos hp, if_pos ⟨List.mem_append_left _ hp.1, hp.2⟩]
  · rw [if_neg hp, if_neg ?_]
    intro hc
    rcases List.mem_append.1 hc.1 with hm | hm
    · exact hp ⟨hm, hc.2⟩
    · have : extractRegion ob.Tag = r0 := by simpa using hm
      rcases h with h | h
      · exact h this
      · exact h (this ▸ hc.2)

theorem collapsedTags_snoc (outs0 : List TrojanOutbound) (P : List String) (r0 : String)
    (r : String) (h : r ≠ r0 ∨ ¬ singletonRegion outs0 r0) :
    collapsedTags outs0 (P ++ [r0]) r = collapsedTags outs0 P r := by
  unfold collapsedTags
  by_cases hp : r ∈ P ∧ singletonRegion outs0 r
  · rw [if_pos hp, if_pos ⟨List.mem_append_left _ hp.1, hp.2⟩]
  · rw [if_neg hp, if_neg ?_]
    intro hc
    rcases List.mem_append.1 hc.1 with hm | hm
    · exact hp ⟨hm, hc.2⟩
    · have hr : r = r0 := by simpa using hm
      rcases h with h | h
      · exact h hr
      · exact h (hr ▸ hc.2)

theorem collapse_fold (outs0 : List TrojanOutbound) (ro : List String)
    (hro : ∀ ob ∈ outs0, extractRegion ob.Tag ∈ ro)
    (hnd : ro.Nodup)
    (hH : ∀ r1 ∈ ro, ∀ r2 ∈ ro, r1 ≠ r2 → singletonRegion outs0 r1 →
      singletonRegion outs0 r2 → r1 ∉ origTags outs0 r2) :
    ∀ (rs P : List String) (cur : List TrojanOutbound × (String → List String)),
      ro = P ++ rs →
      cur.1.length = outs0.length →
      (∀ i (hi : i < outs0.length),
        cur.1[i]? = some (collapsedRecord outs0 P (outs0.get ⟨i, hi⟩))) →
      (∀ r, cur.2 r = collapsedTags outs0 P r) →
      (List.foldl collapseStep cur rs).1.length = outs0.length ∧
      (∀ i (hi : i < outs0.length),
        (List.foldl collapseStep cur rs).1[i]? =
          some (collapsedRecord outs0 ro (outs0.get ⟨i, hi⟩))) ∧
      (∀ r, (List.foldl collapseStep cur rs).2 r = collapsedTags outs0 ro r)
  | [], P, cur => by
    intro hps hlen hinvO hinvT
    rw [List.foldl_nil]
    rw [List.append_nil] at hps
    subst hps
    exact ⟨hlen, hinvO, hinvT⟩
  | r0 :: rs, P, cur => by
    intro hps hlen hinvO hinvT
    rw [List.foldl_cons]
    have hndPR : (P ++ r0 :: rs).Nodup := hps ▸ hnd
    have hr0notP : r0 ∉ P := by
      intro hc
      have hdisj := (List.nodup_append.1 hndPR).2.2
      exact hdisj hc (List.mem_cons_self _ _)
    have htags : cur.2 r0 = origTags outs0 r0 := by
      rw [hinvT r0]
      unfold collapsedTags
      rw [if_neg (fun hc => hr0notP hc.1)]
    have hps2 : ro = (P ++ [r0]) ++ rs := by rw [hps, List.append_assoc]; rfl
    by_cases hS : singletonRegion outs0 r0
    · -- the singleton branch performs one rewrite
      obtain ⟨t0, ht0⟩ := List.length_eq_one.1 hS
      have hstep : collapseStep cur r0 =
          (rewriteFirstTag cur.1 t0 r0,
           fun r => if r = r0 then [r0] else cur.2 r) := by
        unfold collapseStep
        rw [htags, ht0]
        simp
      rw [hstep]
      obtain ⟨i0, hi0, hTag0, hreg0, huniq⟩ := origTags_singleton_unique outs0 r0 t0 ht0
      have hcur_i0 : cur.1[i0]? = some (outs0.get ⟨i0, hi0⟩) := by
        rw [hinvO i0 hi0]
        unfold collapsedRecord
        rw [if_neg ?_]
        intro hc
        rw [hTag0, hreg0] at hc
        exact hr0notP hc.1
      have hi0cur : i0 < cur.1.length := by rw [hlen]; exact hi0
      have hget_i0 : cur.1.get ⟨i0, hi0cur⟩ = outs0.get ⟨i0, hi0⟩ := by
        have := List.getElem?_eq_getElem hi0cur
        rw [hcur_i0] at this
        simpa using this.symm
      -- no record before i0 carries t0 in the current state
      have hbefore : ∀ j (hj : j < cur.1.length), j < i0 →
          (cur.1.get ⟨j, hj⟩).Tag ≠ t0 := by
        intro j hj hlt hc
        have hjo : j < outs0.length := by rw [← hlen]; exact hj
        have hjne : j ≠ i0 := Nat.ne_of_lt hlt
        have hgetj : cur.1[j]? = some (collapsedRecord outs0 P (outs0.get ⟨j, hjo⟩)) :=
          hinvO j hjo
        have hgetj2 : cur.1.get ⟨j, hj⟩ = collapsedRecord outs0 P (outs0.get ⟨j, hjo⟩) := by
          have := List.getElem?_eq_getElem hj
          rw [hgetj] at this
          simpa using this.symm
      -- the region of record j differs from r0
        have hregj : extractRegion ((outs0.get ⟨j, hjo⟩).Tag) ≠ r0 := huniq j hjo hjne
        rw [hgetj2] at hc
        unfold collapsedRecord at hc
        by_cases hcond : extractRegion ((outs0.get ⟨j, hjo⟩).Tag) ∈ P ∧
            singletonRegion outs0 (extractRegion ((outs0.get ⟨j, hjo⟩).Tag))
        · rw [if_pos hcond] at hc
          simp only at hc
          -- hc : extractRegion (tag j) = t0, a region name equal to the member tag
          have hrj := hcond.2
          have hrjro : extractRegion ((outs0.get ⟨j, hjo⟩).Tag) ∈ ro :=
            hro _ (List.get_mem outs0 j hjo)
          have hr0ro : r0 ∈ ro := by
            rw [hps]
            exact List.mem_append_right _ (List.mem_cons_self _ _)
          have hne2 : extractRegion ((outs0.get ⟨j, hjo⟩).Tag) ≠ r0 := hregj
          have hnotmem := hH _ hrjro _ hr0ro hne2 hrj hS
          rw [ht0] at hnotmem
          exact hnotmem (by rw [hc]; exact List.mem_singleton_self _)
        · rw [if_neg hcond] at hc
          -- hc : (outs0.get j).Tag = t0, but then region j = region of t0 = r0
          exact hregj (by rw [hc, hreg0])
      have hrw : rewriteFirstTag cur.1 t0 r0 =
          cur.1.set i0 { outs0.get ⟨i0, hi0⟩ with Tag := r0 } := by
        have := rewriteFirstTag_spec cur.1 t0 r0 i0 hi0cur
          (by rw [hget_i0]; exact hTag0) hbefore
        rw [this, hget_i0]
      rw [hrw]
      -- recurse with the extended processed prefix
      apply collapse_fold outs0 ro hro hnd hH rs (P ++ [r0])
        (cur.1.set i0 { outs0.get ⟨i0, hi0⟩ with Tag := r0 },
         fun r => if r = r0 then [r0] else cur.2 r) hps2
      · simpa using hlen
      · intro i hi
        rw [List.getElem?_set]
        by_cases hii : i0 = i
        · subst hii
          rw [if_pos rfl]
          simp only [hi0cur, if_pos]
          have : collapsedRecord outs0 (P ++ [r0]) (outs0.get ⟨i0, hi0⟩) =
              { outs0.get ⟨i0, hi0⟩ with Tag := r0 } := by
            unfold collapsedRecord
            rw [hTag0, hreg0]
            rw [if_pos ⟨List.mem_append_right _ (List.mem_singleton_self _), hS⟩]
          rw [this]
        · rw [if_neg hii]
          rw [hinvO i hi]
          rw [collapsedRecord_snoc outs0 P r0 _ (Or.inl (huniq i hi (fun hc => hii hc.symm)))]
      · intro r
        show (if r = r0 then [r0] else cur.2 r) = collapsedTags outs0 (P ++ [r0]) r
        by_cases hr : r = r0
        · subst hr
          rw [if_pos rfl]
          unfold collapsedTags
          rw [if_pos ⟨List.mem_append_right _ (List.mem_singleton_self _), hS⟩]
        · rw [if_neg hr, hinvT r, collapsedTags_snoc outs0 P r0 r (Or.inl hr)]
    · -- the region is not a singleton: the step does nothing
      have hstep : collapseStep cur r0 = cur := by
        unfold collapseStep
        rw [htags]
        have hS2 : ¬ ((origTags outs0 r0).length = 1) := hS
        simp [hS2]
      rw [hstep]
      apply collapse_fold outs0 ro hro hnd hH rs (P ++ [r0]) cur hps2 hlen
      · intro i hi
        rw [hinvO i hi]
        rw [collapsedRecord_snoc outs0 P r0 _ (Or.inr hS)]
      · intro r
        rw [hinvT r, collapsedTags_snoc outs0 P r0 r (Or.inr hS)]

/-- C3 (counterexample): records tagged (A B 1) and (A B) classify into the
singleton regions (A B) and (A). Processing region (A B) first rewrites
record 0 to label (A B); processing region (A) then finds record 0 as the
first record labelled (A B) and rewrites it to (A). The single member of
region (A B), record 0, therefore ends with label (A), not its region key
(A B). -/
theorem collapse_singleton_cex :
    ((classify (registry [rColA, rColB])).regionTags "A B" = ["A B 1"]) ∧
    (registry [rColA, rColB]).map (fun r => r.Tag) = ["A B 1", "A B"] ∧
    extractRegion "A B 1" = "A B" ∧
    (pipelineOuts [rColA, rColB]).map (fun r => r.Tag) = ["A", "A B"] ∧
    ¬ ("A" = "A B") := by
  decide

/-- C3 (amended): for every region with exactly one member after
classification, provided no singleton region key equals the member label of
a different singleton region (the rewrite loop of one singleton region can
otherwise capture the record already rewritten for another), the single
member record ends the collapse pass with its label equal to the region key
and all other fields unchanged, and no AggregateOutbound is emitted for that
region. -/
theorem collapse_singleton_amended (outs : List TrojanOutbound)
    (hH : ∀ r1 ∈ (classify outs).regionOrder, ∀ r2 ∈ (classify outs).regionOrder,
      r1 ≠ r2 → ((classify outs).regionTags r1).length = 1 →
      ((classify outs).regionTags r2).length = 1 →
      r1 ∉ (classify outs).regionTags r2)
    (r : String) (hr : r ∈ (classify outs).regionOrder)
    (hs : ((classify outs).regionTags r).length = 1)
    (i : Nat) (ob : TrojanOutbound) (hob : outs[i]? = some ob)
    (hreg : extractRegion ob.Tag = r) :
    (collapse (classify outs).regionOrder (outs, (classify outs).regionTags)).1[i]? =
      some { ob with Tag := r } ∧
    emitRegion
      (collapse (classify outs).regionOrder (outs, (classify outs).regionTags)).2 r = [] := by
  have htagsF : ∀ r2, (classify outs).regionTags r2 = origTags outs r2 := classify_tags outs
  have hsing : singletonRegion outs r := by
    unfold singletonRegion
    rw [← htagsF]
    exact hs
  have hro : ∀ ob2 ∈ outs, extractRegion ob2.Tag ∈ (classify outs).regionOrder := by
    intro ob2 hmem
    rw [classify_order_mem]
    exact ⟨ob2, hmem, rfl⟩
  have hnd := classify_order_nodup outs
  have hH2 : ∀ r1 ∈ (classify outs).regionOrder, ∀ r2 ∈ (classify outs).regionOrder,
      r1 ≠ r2 → singletonRegion outs r1 → singletonRegion outs r2 →
      r1 ∉ origTags outs r2 := by
    intro r1 h1 r2 h2 hne hs1 hs2
    have hs1b : ((classify outs).regionTags r1).length = 1 := by rw [htagsF]; exact hs1
    have hs2b : ((classify outs).regionTags r2).length = 1 := by rw [htagsF]; exact hs2
    have := hH r1 h1 r2 h2 hne hs1b hs2b
    rw [htagsF] at this
    exact this
  have hmain := collapse_fold outs (classify outs).regionOrder hro hnd hH2
    (classify outs).regionOrder [] (outs, (classify outs).regionTags)
    (by simp) rfl
    (by
      intro j hj
      show outs[j]? = some (collapsedRecord outs [] (outs.get ⟨j, hj⟩))
      unfold collapsedRecord
      rw [if_neg (fun hc => by simpa using hc.1)]
      exact List.getElem?_eq_getElem hj)
    (by
      intro r2
      show (classify outs).regionTags r2 = collapsedTags outs [] r2
      unfold collapsedTags
      rw [if_neg (fun hc => by simpa using hc.1)]
      exact htagsF r2)
  obtain ⟨hlen2, hO, hT⟩ := hmain
  have hi : i < outs.length := by
    by_contra hc
    rw [List.getElem?_eq_none (le_of_not_lt hc)] at hob
    exact Option.noConfusion hob
  have hob2 : outs.get ⟨i, hi⟩ = ob := by
    have := List.getElem?_eq_getElem hi
    rw [hob] at this
    simpa using this.symm
  constructor
  · show (List.foldl collapseStep (outs, (classify outs).regionTags)
      (classify outs).regionOrder).1[i]? = some { ob with Tag := r }
    rw [hO i hi]
    unfold collapsedRecord
    rw [hob2, hreg]
    rw [if_pos ⟨hr, hsing⟩]
  · have h2 : (List.foldl collapseStep (outs, (classify outs).regionTags)
        (classify outs).regionOrder).2 r = [r] := by
      rw [hT r]
      unfold collapsedTags
      rw [if_pos ⟨hr, hsing⟩]
    show emitRegion (List.foldl collapseStep (outs, (classify outs).regionTags)
      (classify outs).regionOrder).2 r = []
    unfold emitRegion
    rw [h2]
    simp

/-- C3 witness: the amended collapse theorem applied to a stream with the
singleton region JP and the two member region US. -/
theorem collapse_singleton_amended_witness :
    ((∀ r1 ∈ (classify [wJP1, wUS1, wUS2]).regionOrder,
        ∀ r2 ∈ (classify [wJP1, wUS1, wUS2]).regionOrder, r1 ≠ r2 →
        ((classify [wJP1, wUS1, wUS2]).regionTags r1).length = 1 →
        ((classify [wJP1, wUS1, wUS2]).regionTags r2).length = 1 →
        r1 ∉ (classify [wJP1, wUS1, wUS2]).regionTags r2) ∧
      "JP" ∈ (classify [wJP1, wUS1, wUS2]).regionOrder ∧
      ((classify [wJP1, wUS1, wUS2]).regionTags "JP").length = 1 ∧
      [wJP1, wUS1, wUS2][0]? = some wJP1 ∧
      extractRegion wJP1.Tag = "JP") ∧
    ((collapse (classify [wJP1, wUS1, wUS2]).regionOrder
        ([wJP1, wUS1, wUS2], (classify [wJP1, wUS1, wUS2]).regionTags)).1[0]? =
      some { wJP1 with Tag := "JP" } ∧
     emitRegion
       (collapse (classify [wJP1, wUS1, wUS2]).regionOrder
         ([wJP1, wUS1, wUS2], (classify [wJP1, wUS1, wUS2]).regionTags)).2 "JP" = []) :=
  ⟨⟨by decide, by decide, by decide, by decide, by decide⟩,
   collapse_singleton_amended [wJP1, wUS1, wUS2] (by decide) "JP" (by decide) (by decide)
     0 wJP1 (by decide) (by decide)⟩

/-- C2: the region classifier returns the label itself when splitting on
whitespace yields zero or one tokens, and otherwise returns all tokens except
the last, rejoined with single spaces. -/
theorem extractRegion_spec (tag : String) :
    ((goFields tag).length ≤ 1 → extractRegion tag = tag) ∧
    (2 ≤ (goFields tag).length →
      extractRegion tag = " ".intercalate (goFields tag).dropLast) := by
  constructor
  · intro h
    unfold extractRegion
    rw [if_pos h]
  · intro h
    unfold extractRegion
    rw [if_neg (by omega)]

/-- C2 witness: the classifier theorem evaluated on a one token label and on
a two token label. -/
theorem extractRegion_spec_witness :
    ((goFields "JP").length ≤ 1 ∧ extractRegion "JP" = "JP") ∧
    (2 ≤ (goFields "JP 01").length ∧
      extractRegion "JP 01" = " ".intercalate (goFields "JP 01").dropLast) :=
  ⟨⟨by decide, (extractRegion_spec "JP").1 (by decide)⟩,
   ⟨by decide, (extractRegion_spec "JP 01").2 (by decide)⟩⟩

theorem mem_appendUniqueAux_of_mem_dst {x : String} :
    ∀ (src seen dst : List String), x ∈ dst → x ∈ appendUniqueAux seen dst src
  | [], _, _ => fun h => h
  | v :: rest, seen, dst => fun h => by
    unfold appendUniqueAux
    by_cases hv : v ∈ seen
    · rw [if_pos hv]
      exact mem_appendUniqueAux_of_mem_dst rest seen dst h
    · rw [if_neg hv]
      exact mem_appendUniqueAux_of_mem_dst rest _ _ (List.mem_append_left _ h)

theorem mem_appendUniqueAux_of_mem_src {x : String} :
    ∀ (src seen dst : List String), (∀ y, y ∈ seen → y ∈ dst) → x ∈ src →
      x ∈ appendUniqueAux seen dst src
  | [], _, _ => by
    intro _ h
    simp at h
  | v :: rest, seen, dst => by
    intro hsub hx
    unfold appendUniqueAux
    by_cases hv : v ∈ seen
    · rw [if_pos hv]
      rcases List.mem_cons.1 hx with rfl | hx2
      · exact mem_appendUniqueAux_of_mem_dst rest seen dst (hsub _ hv)
      · exact mem_appendUniqueAux_of_mem_src rest seen dst hsub hx2
    · rw [if_neg hv]
      rcases List.mem_cons.1 hx with rfl | hx2
      · exact mem_appendUniqueAux_of_mem_dst rest _ _
          (List.mem_append_right _ (List.mem_singleton_self _))
      · refine mem_appendUniqueAux_of_mem_src rest _ _ ?_ hx2
        intro y hy
        rcases List.mem_cons.1 hy with rfl | hy2
        · exact List.mem_append_right _ (List.mem_singleton_self _)
        · exact List.mem_append_left _ (hsub _ hy2)

theorem appendUniqueAux_no_new (src : List String) :
    ∀ (seen dst : List String), (∀ v ∈ src, v ∈ seen) →
      appendUniqueAux seen dst src = dst := by
  induction src with
  | nil => intro seen dst _; rfl
  | cons v rest ih =>
    intro seen dst h
    unfold appendUniqueAux
    rw [if_pos (h v (List.mem_cons_self _ _))]
    exact ih seen dst (fun y hy => h y (List.mem_cons_of_mem _ hy))

/-- C6: the template merge is idempotent: appending a region key list with
the dedup rule to a list that already resulted from such an append leaves the
list unchanged. -/
theorem appendUnique_idem (dst src : List String) :
    appendUnique (appendUnique dst src) src = appendUnique dst src := by
  unfold appendUnique
  apply appendUniqueAux_no_new
  intro v hv
  exact mem_appendUniqueAux_of_mem_src src dst dst (fun y hy => hy) hv

/-- C5 (code bug evaluation): a trojan URI with no port makes parseTrojanURL
return (nil, nil), because the branch returns the stale err variable that
still holds the nil error of the successful url.Parse; the caller then skips
the line silently instead of reporting a failure. A port of 0 is accepted as
a record with ServerPort 0 rather than rejected as non positive. Both
behaviours contradict the claim that such URIs are failures. -/
theorem parse_port_eval :
    parseTrojanURL urlNoPort = (none, none) ∧
    parseTrojanURL urlPortZero =
      (some { typ := "trojan", Tag := "Tag", Server := "hst", ServerPort := 0,
              Password := "p",
              TLS := { Enabled := true, ServerName := "", Insecure := false } },
       none) := by
  decide

theorem buildGroups_fold (regionTags : String → List String) :
    ∀ (ro : List String) (acc : List GroupOutbound),
      ro.foldl (fun acc region => acc ++ emitRegion regionTags region) acc =
        acc ++ ro.flatMap (emitRegion regionTags)
  | [], acc => by simp
  | r :: ro, acc => by
    rw [List.foldl_cons, buildGroups_fold regionTags ro _]
    simp

/-- C4: the synthesized group list is the concatenation, in region discovery
order, of the per region contributions, and every region with two or more
members contributes exactly two records: first the urltest aggregator named
region-auto over the member labels with interrupt false, then the selector
named after the bare region whose member list is the aggregator followed by
the member labels, with interrupt true. -/
theorem buildGroups_spec (ro : List String) (tags : String → List String) :
    buildGroups ro tags = ro.flatMap (emitRegion tags) ∧
    ∀ r, 2 ≤ (tags r).length →
      emitRegion tags r =
        [ { typ := "urltest", Tag := r ++ "-auto", Outbounds := tags r,
            InterruptExistConnections := false },
          { typ := "selector", Tag := r, Outbounds := (r ++ "-auto") :: tags r,
            InterruptExistConnections := true } ] := by
  constructor
  · unfold buildGroups
    simpa using buildGroups_fold tags ro []
  · intro r h
    unfold emitRegion
    rw [if_neg (by omega)]

/-- C4 witness: the group synthesis theorem applied to the two member region
JP. -/
theorem buildGroups_spec_witness :
    (buildGroups ["JP", "US"] tJPUS = (["JP", "US"]).flatMap (emitRegion tJPUS)) ∧
    (2 ≤ (tJPUS "JP").length ∧
      emitRegion tJPUS "JP" =
        [ { typ := "urltest", Tag := "JP" ++ "-auto", Outbounds := tJPUS "JP",
            InterruptExistConnections := false },
          { typ := "selector", Tag := "JP", Outbounds := ("JP" ++ "-auto") :: tJPUS "JP",
            InterruptExistConnections := true } ]) :=
  ⟨(buildGroups_spec ["JP", "US"] tJPUS).1,
   by decide, (buildGroups_spec ["JP", "US"] tJPUS).2 "JP" (by decide)⟩

theorem loadSelectorsLoop_cons_none (raw : RawMsg) (rest : List RawMsg)
    (h : raw.typeField = none) :
    loadSelectorsLoop (raw :: rest) = Except.error ("unmarshal type failed") := by
  conv_lhs => rw [loadSelectorsLoop]
  rw [h]

theorem loadSelectorsLoop_cons_other (raw : RawMsg) (rest : List RawMsg) (t : String)
    (h : raw.typeField = some t) (hts : t ≠ "selector") :
    loadSelectorsLoop (raw :: rest) =
      (loadSelectorsLoop rest).map (fun l => TemplateEntry.passthrough raw :: l) := by
  conv_lhs => rw [loadSelectorsLoop]
  rw [h]
  simp [hts]

theorem loadSelectorsLoop_cons_sel_none (raw : RawMsg) (rest : List RawMsg)
    (h : raw.typeField = some "selector") (hs : raw.asSelector = none) :
    loadSelectorsLoop (raw :: rest) = Except.error ("unmarshal selector failed") := by
  conv_lhs => rw [loadSelectorsLoop]
  rw [h]
  simp [hs]

theorem loadSelectorsLoop_cons_sel_some (raw : RawMsg) (rest : List RawMsg)
    (sel : SelectorOutbound) (h : raw.typeField = some "selector")
    (hs : raw.asSelector = some sel) :
    loadSelectorsLoop (raw :: rest) =
      (loadSelectorsLoop rest).map (fun l => TemplateEntry.selector sel :: l) := by
  conv_lhs => rw [loadSelectorsLoop]
  rw [h]
  simp [hs]

theorem loadSelectorsLoop_ok_passthrough :
    ∀ (raws : List RawMsg) (entries : List TemplateEntry),
      loadSelectorsLoop raws = Except.ok entries →
      ∀ (i : Nat) (msg : RawMsg) (t : String), raws[i]? = some msg →
        msg.typeField = some t → t ≠ "selector" →
        entries[i]? = some (.passthrough msg)
  | [], entries => by
    intro _ i msg t hmsg _ _
    simp at hmsg
  | raw :: rest, entries => by
    intro h i msg t hmsg ht hts
    cases htf : raw.typeField with
    | none =>
      rw [loadSelectorsLoop_cons_none raw rest htf] at h
      exact Except.noConfusion h
    | some t2 =>
      by_cases hsel : t2 = "selector"
      · subst hsel
        cases has : raw.asSelector with
        | none =>
          rw [loadSelectorsLoop_cons_sel_none raw rest htf has] at h
          exact Except.noConfusion h
        | some sel =>
          rw [loadSelectorsLoop_cons_sel_some raw rest sel htf has] at h
          cases hrec : loadSelectorsLoop rest with
          | error e =>
            rw [hrec] at h
            exact Except.noConfusion h
          | ok l =>
            rw [hrec] at h
            have hent : TemplateEntry.selector sel :: l = entries := by
              simpa [Except.map] using h
            subst hent
            cases i with
            | zero =>
              have hmr : raw = msg := by simpa using hmsg
              subst hmr
              rw [htf] at ht
              have ht2 : "selector" = t := by simpa using ht
              exact absurd ht2.symm hts
            | succ i =>
              have := loadSelectorsLoop_ok_passthrough rest l hrec i msg t
                (by simpa using hmsg) ht hts
              simpa using this
      · rw [loadSelectorsLoop_cons_other raw rest t2 htf hsel] at h
        cases hrec : loadSelectorsLoop rest with
        | error e =>
          rw [hrec] at h
          exact Except.noConfusion h
        | ok l =>
          rw [hrec] at h
          have hent : TemplateEntry.passthrough raw :: l = entries := by
            simpa [Except.map] using h
          subst hent
          cases i with
          | zero =>
            have hmr : raw = msg := by simpa using hmsg
            subst hmr
            simp
          | succ i =>
            have := loadSelectorsLoop_ok_passthrough rest l hrec i msg t
              (by simpa using hmsg) ht hts
            simpa using this

theorem loadSelectorsLoop_ok_selector :
    ∀ (raws : List RawMsg) (entries : List TemplateEntry),
      loadSelectorsLoop raws = Except.ok entries →
      ∀ (i : Nat) (msg : RawMsg) (sel : SelectorOutbound), raws[i]? = some msg →
        msg.typeField = some "selector" → msg.asSelector = some sel →
        entries[i]? = some (.selector sel)
  | [], entries => by
    intro _ i msg sel hmsg _ _
    simp at hmsg
  | raw :: rest, entries => by
    intro h i msg sel hmsg ht hsel
    cases htf : raw.typeField with
    | none =>
      rw [loadSelectorsLoop_cons_none raw rest htf] at h
      exact Except.noConfusion h
    | some t2 =>
      by_cases hts : t2 = "selector"
      · subst hts
        cases has : raw.asSelector with
        | none =>
          rw [loadSelectorsLoop_cons_sel_none raw rest htf has] at h
          exact Except.noConfusion h
        | some sel2 =>
          rw [loadSelectorsLoop_cons_sel_some raw rest sel2 htf has] at h
          cases hrec : loadSelectorsLoop rest with
          | error e =>
            rw [hrec] at h
            exact Except.noConfusion h
          | ok l =>
            rw [hrec] at h
            have hent : TemplateEntry.selector sel2 :: l = entries := by
              simpa [Except.map] using h
            subst hent
            cases i with
            | zero =>
              have hmr : raw = msg := by simpa using hmsg
              subst hmr
              rw [has] at hsel
              have hss : sel2 = sel := by simpa using hsel
              subst hss
              simp
            | succ i =>
              have := loadSelectorsLoop_ok_selector rest l hrec i msg sel
                (by simpa using hmsg) ht hsel
              simpa using this
      · rw [loadSelectorsLoop_cons_other raw rest t2 htf hts] at h
        cases hrec : loadSelectorsLoop rest with
        | error e =>
          rw [hrec] at h
          exact Except.noConfusion h
        | ok l =>
          rw [hrec] at h
          have hent : TemplateEntry.passthrough raw :: l = entries := by
            simpa [Except.map] using h
          subst hent
          cases i with
          | zero =>
            have hmr : raw = msg := by simpa using hmsg
            subst hmr
            rw [htf] at ht
            have ht2 : t2 = "selector" := by simpa using ht
            exact absurd ht2 hts
          | succ i =>
            have := loadSelectorsLoop_ok_selector rest l hrec i msg sel
              (by simpa using hmsg) ht hsel
            simpa using this

/-- C8: a template entry whose type discriminator is not selector is carried
through load and merge as the untouched raw message: the merged output at its
index is the passthrough of the very entry read from the template. -/
theorem merge_passthrough_frame (raws : List RawMsg) (order : List String)
    (entries : List TemplateEntry) (h : loadSelectorsLoop raws = Except.ok entries)
    (i : Nat) (msg : RawMsg) (t : String) (hmsg : raws[i]? = some msg)
    (ht : msg.typeField = some t) (hts : t ≠ "selector") :
    (mergeSelectors entries order)[i]? = some (.passthrough msg) := by
  have he := loadSelectorsLoop_ok_passthrough raws entries h i msg t hmsg ht hts
  unfold mergeSelectors
  rw [List.getElem?_map, he]
  rfl

/-- C9: a template entry of kind selector reaches the merged output with only
its member list changed (the region keys appended through appendUnique);
the type and tag fields carried by the decoded entry are preserved. -/
theorem merge_selector_frame (raws : List RawMsg) (order : List String)
    (entries : List TemplateEntry) (h : loadSelectorsLoop raws = Except.ok entries)
    (i : Nat) (msg : RawMsg) (sel : SelectorOutbound) (hmsg : raws[i]? = some msg)
    (ht : msg.typeField = some "selector") (hsel : msg.asSelector = some sel) :
    (mergeSelectors entries order)[i]? =
      some (.selector { typ := sel.typ, Tag := sel.Tag,
                        Outbounds := appendUnique sel.Outbounds order }) := by
  have he := loadSelectorsLoop_ok_selector raws entries h i msg sel hmsg ht hsel
  unfold mergeSelectors
  rw [List.getElem?_map, he]
  rfl

theorem loadSelectorsLoop_err : ∀ (raws : List RawMsg) (msg : RawMsg), msg ∈ raws →
    (msg.typeField = none ∨ (msg.typeField = some "selector" ∧ msg.asSelector = none)) →
    (loadSelectorsLoop raws).isOk = false
  | [], msg => by
    intro h
    simp at h
  | raw :: rest, msg => by
    intro hmem hbad
    rcases List.mem_cons.1 hmem with rfl | hmem2
    · rcases hbad with h1 | ⟨h2, h3⟩
      · rw [loadSelectorsLoop_cons_none msg rest h1]
        rfl
      · rw [loadSelectorsLoop_cons_sel_none msg rest h2 h3]
        rfl
    · have hrest := loadSelectorsLoop_err rest msg hmem2 hbad
      cases htf : raw.typeField with
      | none =>
        rw [loadSelectorsLoop_cons_none raw rest htf]
        rfl
      | some t =>
        by_cases hts : t = "selector"
        · subst hts
          cases has : raw.asSelector with
          | none =>
            rw [loadSelectorsLoop_cons_sel_none raw rest htf has]
            rfl
          | some sel =>
            rw [loadSelectorsLoop_cons_sel_some raw rest sel htf has]
            cases hrec : loadSelectorsLoop rest with
            | error e => rfl
            | ok l =>
              rw [hrec] at hrest
              simp [Except.isOk, Except.toBool] at hrest
        · rw [loadSelectorsLoop_cons_other raw rest t htf hts]
          cases hrec : loadSelectorsLoop rest with
          | error e => rfl
          | ok l =>
            rw [hrec] at hrest
            simp [Except.isOk, Except.toBool] at hrest

/-- C10: the template loader returns zero entries and no failure when the
file does not exist, and an error (fatal in main) whenever the file exists
but its content fails to decode, at the file level or at any entry. -/
theorem loadSelectors_spec :
    loadSelectors TemplateRead.notExist = Except.ok [] ∧
    ∀ (cfg : Option (List RawMsg)),
      (cfg = none ∨ ∃ msg ∈ cfg.getD [], msg.typeField = none ∨
        (msg.typeField = some "selector" ∧ msg.asSelector = none)) →
      (loadSelectors (TemplateRead.bytes cfg)).isOk = false := by
  constructor
  · rfl
  · intro cfg hbad
    rcases hbad with rfl | ⟨msg, hmem, hbad⟩
    · rfl
    · cases cfg with
      | none => rfl
      | some raws =>
        show (loadSelectorsLoop raws).isOk = false
        exact loadSelectorsLoop_err raws msg (by simpa using hmem) hbad

/-- C10 witness: the loader theorem applied to the missing file case and to
a template whose single entry fails the type decode. -/
theorem loadSelectors_spec_witness :
    (loadSelectors TemplateRead.notExist = Except.ok []) ∧
    ((some [badRaw] : Option (List RawMsg)) = none ∨
      ∃ msg ∈ (some [badRaw] : Option (List RawMsg)).getD [], msg.typeField = none ∨
        (msg.typeField = some "selector" ∧ msg.asSelector = none)) ∧
    (loadSelectors (TemplateRead.bytes (some [badRaw]))).isOk = false :=
  ⟨loadSelectors_spec.1, by decide, loadSelectors_spec.2 (some [badRaw]) (by decide)⟩

/-- C8 witness: passthrough preservation applied to a concrete template with
a dns entry ahead of a selector entry. -/
theorem merge_passthrough_frame_witness :
    (loadSelectorsLoop [rawOpq, rawSel] =
      Except.ok [TemplateEntry.passthrough rawOpq, TemplateEntry.selector selProxy] ∧
     [rawOpq, rawSel][0]? = some rawOpq ∧ rawOpq.typeField = some "dns" ∧
     "dns" ≠ "selector") ∧
    (mergeSelectors [TemplateEntry.passthrough rawOpq, TemplateEntry.selector selProxy]
      ["JP"])[0]? = some (TemplateEntry.passthrough rawOpq) :=
  ⟨⟨rfl, by decide, by decide, by decide⟩,
   merge_passthrough_frame [rawOpq, rawSel] ["JP"]
     [TemplateEntry.passthrough rawOpq, TemplateEntry.selector selProxy]
     rfl 0 rawOpq "dns" (by decide) (by decide) (by decide)⟩

/-- C9 witness: selector frame preservation applied to a concrete template
selector. -/
theorem merge_selector_frame_witness :
    (loadSelectorsLoop [rawOpq, rawSel] =
      Except.ok [TemplateEntry.passthrough rawOpq, TemplateEntry.selector selProxy] ∧
     [rawOpq, rawSel][1]? = some rawSel ∧ rawSel.typeField = some "selector" ∧
     rawSel.asSelector = some selProxy) ∧
    (mergeSelectors [TemplateEntry.passthrough rawOpq, TemplateEntry.selector selProxy]
      ["JP"])[1]? =
      some (TemplateEntry.selector
        { typ := selProxy.typ, Tag := selProxy.Tag,
          Outbounds := appendUnique selProxy.Outbounds ["JP"] }) :=
  ⟨⟨rfl, by decide, by decide, by decide⟩,
   merge_selector_frame [rawOpq, rawSel] ["JP"]
     [TemplateEntry.passthrough rawOpq, TemplateEntry.selector selProxy]
     rfl 1 rawSel selProxy (by decide) (by decide) (by decide)⟩

end Msbc
